import Mathlib

/-
  Verification of the mt_list multi-thread aware doubly-linked circular list
  against its specification, at the quiescent (single-thread, committed-state)
  level of abstraction.

  Addresses of list nodes are modelled as natural numbers.  The NULL pointer is
  the address 0 and the MT_LIST_BUSY sentinel is the address 1, exactly as in
  include/mt_list.h.  The heap is a total map from addresses to node contents.
  Each operation of the operation layer is modelled by the final committed
  state it produces once all of its link locks have been released (the
  transient BUSY states of the locking protocol are invisible at quiescence,
  except for the cut operations, which deliberately return with links still
  holding BUSY).
-/

set_option maxHeartbeats 1000000

/-- A list element, both a head or any element (struct mt_list,
include/mt_list.h lines 48-51): a forward link and a backward link. -/
structure MtList where
  next : Nat
  prev : Nat
deriving DecidableEq, Repr

/-- The heap of list nodes: a total map from addresses to node contents. -/
abbrev Mem : Type := Nat → MtList

/-- MT_LIST_BUSY, the locked-pointer sentinel: the constant address 1 cast to
a node pointer (include/mt_list.h line 58). -/
def MT_LIST_BUSY : Nat := 1

/-- The NULL pointer, address 0. -/
def NULLptr : Nat := 0

/-- Read the forward link of the node at address a. -/
def readNext (m : Mem) (a : Nat) : Nat :=
  (m a).next

/-- Read the backward link of the node at address a. -/
def readPrev (m : Mem) (a : Nat) : Nat :=
  (m a).prev

/-- Store v into the forward link of the node at address a. -/
def writeNext (m : Mem) (a v : Nat) : Mem :=
  fun x => if x = a then MtList.mk v (m x).prev else m x

/-- Store v into the backward link of the node at address a. -/
def writePrev (m : Mem) (a v : Nat) : Mem :=
  fun x => if x = a then MtList.mk (m x).next v else m x

/-- MT_LIST_HEAD_INIT(l) (include/mt_list.h line 66): the value assigned to a
list head being declared, with both links pointing to the head itself. -/
def MT_LIST_HEAD_INIT (l : Nat) : MtList :=
  MtList.mk l l

/-- Initialization of the head at address l in a heap: the node at l receives
the MT_LIST_HEAD_INIT value. -/
def mt_list_head_init (m : Mem) (l : Nat) : Mem :=
  fun x => if x = l then MT_LIST_HEAD_INIT l else m x

/-- The address of the mt_list member placed at offset off inside the
enclosing structure living at address s (the embedding that MT_LIST_ELEM
inverts). -/
def memberAddr (s off : Nat) : Nat :=
  s + off

/-- MT_LIST_ELEM(a, t, m) (include/mt_list.h line 75): recovers the enclosing
structure from the address a of its mt_list member by subtracting the
compile-time field offset. -/
def MT_LIST_ELEM (a off : Nat) : Nat :=
  a - off

/-- MT_LIST_NEXT(a, t, m) (include/mt_list.h line 84): the enclosing structure
of the node following the one at address a. -/
def MT_LIST_NEXT (m : Mem) (a off : Nat) : Nat :=
  MT_LIST_ELEM (readNext m a) off

/-- MT_LIST_PREV(a, t, m) (include/mt_list.h line 93): the enclosing structure
of the node preceding the one at address a. -/
def MT_LIST_PREV (m : Mem) (a off : Nat) : Nat :=
  MT_LIST_ELEM (readPrev m a) off

/-- Modelled from the spec: mt_list_append(el1, el2) (spec 4.3, README), whose
body is not under src/.  Adds el2 immediately before el1: with
tail = el1.prev, the commit writes el2 into tail.next and el1.prev, and sets
el2.prev = tail, el2.next = el1. -/
def mt_list_append (m : Mem) (el1 el2 : Nat) : Mem :=
  let t := readPrev m el1
  writeNext (writePrev (writePrev (writeNext m t el2) el1 el2) el2 t) el2 el1

/-- Modelled from the spec: mt_list_try_append(el1, el2) (spec 4.3, README),
whose body is not under src/.  Succeeds like append only when el2 is currently
detached (both links looping onto el2); otherwise returns false and changes
nothing. -/
def mt_list_try_append (m : Mem) (el1 el2 : Nat) : Bool × Mem :=
  if readNext m el2 = el2 ∧ readPrev m el2 = el2 then
    (true, mt_list_append m el1 el2)
  else
    (false, m)

/-- Modelled from the spec: mt_list_insert(el1, el2) (spec 4.3, README), whose
body is not under src/.  Adds el2 immediately after el1: with n = el1.next,
the commit writes el2 into el1.next and n.prev, and sets el2.prev = el1,
el2.next = n. -/
def mt_list_insert (m : Mem) (el1 el2 : Nat) : Mem :=
  let n := readNext m el1
  writeNext (writePrev (writePrev (writeNext m el1 el2) n el2) el2 el1) el2 n

/-- Modelled from the spec: mt_list_try_insert(el1, el2) (spec 4.3, README),
whose body is not under src/.  Succeeds like insert only when el2 is currently
detached; otherwise returns false and changes nothing. -/
def mt_list_try_insert (m : Mem) (el1 el2 : Nat) : Bool × Mem :=
  if readNext m el2 = el2 ∧ readPrev m el2 = el2 then
    (true, mt_list_insert m el1 el2)
  else
    (false, m)

/-- Modelled from the spec: mt_list_delete(el) (spec 4.3, README lines
171-191), whose body is not under src/.  A detached node returns false without
mutation; otherwise with P = el.prev and N = el.next the commit links P and N
together and self-loops el, returning true. -/
def mt_list_delete (m : Mem) (el : Nat) : Bool × Mem :=
  if readNext m el = el then
    (false, m)
  else
    let p := readPrev m el
    let n := readNext m el
    (true, writePrev (writeNext (writePrev (writeNext m p n) n p) el el) el el)

/-- Modelled from the spec: mt_list_pop(h) (spec 4.3, README lines 218-240),
whose body is not under src/.  Returns NULL (none) when the list is empty;
otherwise unlinks and returns the first element h.next, leaving it detached. -/
def mt_list_pop (m : Mem) (h : Nat) : Option Nat × Mem :=
  let el := readNext m h
  if el = h then
    (none, m)
  else
    let n := readNext m el
    (some el, writePrev (writeNext (writePrev (writeNext m h n) n h) el el) el el)

/-- Modelled from the spec: mt_list_behead(h) (spec 4.3, README lines
194-215), whose body is not under src/.  Returns NULL (none) on an empty head;
otherwise with F = h.next and L = h.prev it self-loops the head, points F.prev
at L, terminates the detached chain with L.next = NULL, and returns F. -/
def mt_list_behead (m : Mem) (h : Nat) : Option Nat × Mem :=
  let f := readNext m h
  if f = h then
    (none, m)
  else
    let l := readPrev m h
    (some f, writeNext (writePrev (writePrev (writeNext m h h) h h) f l) l NULLptr)

/-- Modelled from the spec: mt_list_cut_after(el) (spec 4.3, README lines
243-263), whose body is not under src/.  Replaces the link between el and its
successor S by two BUSY pointers and returns the locked ends token, a list
element whose prev is el and whose next is S. -/
def mt_list_cut_after (m : Mem) (el : Nat) : MtList × Mem :=
  let s := readNext m el
  (MtList.mk s el, writePrev (writeNext m el MT_LIST_BUSY) s MT_LIST_BUSY)

/-- Modelled from the spec: mt_list_cut_before(el) (spec 4.3, README lines
265-284), whose body is not under src/.  Replaces the link between el.prev = P
and el by two BUSY pointers and returns the locked ends token (P, el). -/
def mt_list_cut_before (m : Mem) (el : Nat) : MtList × Mem :=
  let p := readPrev m el
  (MtList.mk el p, writePrev (writeNext m p MT_LIST_BUSY) el MT_LIST_BUSY)

/-- Modelled from the spec: mt_list_cut_around(el) (spec 4.3, README lines
287-308), whose body is not under src/.  Locks the four pointers surrounding
el (P.next, S.prev and both of el's own links) with BUSY and returns the ends
token (P, S) where P and S are el's two neighbors. -/
def mt_list_cut_around (m : Mem) (el : Nat) : MtList × Mem :=
  let p := readPrev m el
  let s := readNext m el
  (MtList.mk s p,
   writePrev (writeNext (writePrev (writeNext m p MT_LIST_BUSY) s MT_LIST_BUSY) el MT_LIST_BUSY)
     el MT_LIST_BUSY)

/-- Modelled from the spec: mt_list_connect_ends(ends) (spec 4.3, README lines
311-330), whose body is not under src/.  With the token capturing (A, B),
writes A.next = B and B.prev = A, releasing the two locks. -/
def mt_list_connect_ends (m : Mem) (ends : MtList) : Mem :=
  writePrev (writeNext m ends.prev ends.next) ends.next ends.prev

/-- Modelled from the spec: mt_list_connect_elem(el, ends) (spec 4.3, README
lines 333-356), whose body is not under src/.  With the token capturing
(A, B), commits A.next = el, el.prev = A, el.next = B, B.prev = el, releasing
all four locks. -/
def mt_list_connect_elem (m : Mem) (el : Nat) (ends : MtList) : Mem :=
  writePrev (writeNext (writePrev (writeNext m ends.prev el) el ends.prev) el ends.next)
    ends.next el

/-- A detached node: both links loop onto the node itself (spec 3,
glossary). -/
def detached (m : Mem) (x : Nat) : Prop :=
  readNext m x = x ∧ readPrev m x = x

/-- The per-node quiescent invariant of spec 3 and 8: X.next.prev = X,
X.prev.next = X, and neither link holds the BUSY sentinel. -/
def nodeInv (m : Mem) (x : Nat) : Prop :=
  readPrev m (readNext m x) = x ∧ readNext m (readPrev m x) = x ∧
    readNext m x ≠ MT_LIST_BUSY ∧ readPrev m x ≠ MT_LIST_BUSY

/-- Modelled from the spec: a valid node address on the target platform
(spec 6).  Nodes hold two pointers, so they are aligned to at least the
pointer size; a valid node address is non-null and even. -/
def validAddr (a : Nat) : Prop :=
  a ≠ 0 ∧ a % 2 = 0

/-- isChain m a xs b: starting at node a, the forward links run a, xs, b and
every one of those links is mirrored by the matching backward link.  A ring
rooted at h with elements xs is isChain m h xs h. -/
def isChain (m : Mem) : Nat → List Nat → Nat → Prop
  | a, [], b => readNext m a = b ∧ readPrev m b = a
  | a, x :: xs, b => readNext m a = x ∧ readPrev m x = a ∧ isChain m x xs b

/-- A linear open chain (spec 4.3 behead): consecutive elements are doubly
linked and the last element's next is NULL. -/
def isOpenChain (m : Mem) : List Nat → Prop
  | [] => True
  | [x] => readNext m x = NULLptr
  | x :: y :: ys => readNext m x = y ∧ readPrev m y = x ∧ isOpenChain m (y :: ys)

/-- The list of nodes met while following next links from a for k steps. -/
def walkNext (m : Mem) : Nat → Nat → List Nat
  | a, 0 => [a]
  | a, k + 1 => a :: walkNext m (readNext m a) k

/-- The list of nodes met while following prev links from a for k steps. -/
def walkPrev (m : Mem) : Nat → Nat → List Nat
  | a, 0 => [a]
  | a, k + 1 => a :: walkPrev m (readPrev m a) k

/-- A heap in which every node is detached (self-looped), as after
initializing each node with MT_LIST_HEAD_INIT. -/
def mInit : Mem :=
  fun a => MtList.mk a a

/-- A concrete heap holding the ring 10 -> 20 -> 30 -> 10 (head 10), every
other node detached. -/
def mRing3 : Mem := fun a =>
  if a = 10 then MtList.mk 20 30
  else if a = 20 then MtList.mk 30 10
  else if a = 30 then MtList.mk 10 20
  else MtList.mk a a

/-- A concrete heap holding the one-element ring 10 -> 20 -> 10 (head 10),
every other node detached. -/
def mRing1 : Mem := fun a =>
  if a = 10 then MtList.mk 20 20
  else if a = 20 then MtList.mk 10 10
  else MtList.mk a a

/-- A concrete heap for exercising the navigation helpers: the node embedded
at offset 8 of the structure at 96 (so at address 104) links forward to the
node of the structure at 200 and backward to the node of the structure at
304. -/
def mNav : Mem := fun a =>
  if a = 104 then MtList.mk 208 312 else MtList.mk a a

def isChainDecAux (m : Mem) : (xs : List Nat) → (a b : Nat) → Decidable (isChain m a xs b)
  | [], a, b =>
    inferInstanceAs (Decidable (readNext m a = b ∧ readPrev m b = a))
  | x :: xs, a, b =>
    have : Decidable (isChain m x xs b) := isChainDecAux m xs x b
    inferInstanceAs (Decidable (readNext m a = x ∧ readPrev m x = a ∧ isChain m x xs b))

instance (m : Mem) (a : Nat) (xs : List Nat) (b : Nat) : Decidable (isChain m a xs b) :=
  isChainDecAux m xs a b

instance (m : Mem) (x : Nat) : Decidable (nodeInv m x) :=
  inferInstanceAs (Decidable (readPrev m (readNext m x) = x ∧ readNext m (readPrev m x) = x ∧
    readNext m x ≠ MT_LIST_BUSY ∧ readPrev m x ≠ MT_LIST_BUSY))

instance (m : Mem) (x : Nat) : Decidable (detached m x) :=
  inferInstanceAs (Decidable (readNext m x = x ∧ readPrev m x = x))

instance (a : Nat) : Decidable (validAddr a) :=
  inferInstanceAs (Decidable (a ≠ 0 ∧ a % 2 = 0))

@[simp] theorem readNext_writeNext (m : Mem) (a v x : Nat) :
    readNext (writeNext m a v) x = if x = a then v else readNext m x := by
  simp only [readNext, writeNext]
  split <;> rfl

@[simp] theorem readPrev_writeNext (m : Mem) (a v x : Nat) :
    readPrev (writeNext m a v) x = readPrev m x := by
  simp only [readPrev, writeNext]
  split <;> rfl

@[simp] theorem readNext_writePrev (m : Mem) (a v x : Nat) :
    readNext (writePrev m a v) x = readNext m x := by
  simp only [readNext, writePrev]
  split <;> rfl

@[simp] theorem readPrev_writePrev (m : Mem) (a v x : Nat) :
    readPrev (writePrev m a v) x = if x = a then v else readPrev m x := by
  simp only [readPrev, writePrev]
  split <;> rfl

theorem mtlist_eq_of (x y : MtList) (h1 : x.next = y.next) (h2 : x.prev = y.prev) : x = y := by
  cases x
  cases y
  simp_all

theorem isChain_frame (m m2 : Mem) (xs : List Nat) : ∀ (a b : Nat),
    (∀ x ∈ a :: xs, readNext m2 x = readNext m x) →
    (∀ x ∈ xs ++ [b], readPrev m2 x = readPrev m x) →
    isChain m a xs b → isChain m2 a xs b := by
  induction xs with
  | nil =>
    intro a b hn hp hc
    simp only [isChain] at hc ⊢
    exact ⟨by rw [hn a (by simp)]; exact hc.1, by rw [hp b (by simp)]; exact hc.2⟩
  | cons x xs ih =>
    intro a b hn hp hc
    simp only [isChain] at hc ⊢
    refine ⟨by rw [hn a (by simp)]; exact hc.1, by rw [hp x (by simp)]; exact hc.2.1, ?_⟩
    exact ih x b (fun y hy => hn y (by simp only [List.mem_cons] at hy ⊢; tauto))
      (fun y hy => hp y (by simp only [List.mem_cons, List.mem_append] at hy ⊢; tauto)) hc.2.2

theorem isChain_split (m : Mem) (xs : List Nat) : ∀ (a y : Nat) (ys : List Nat) (b : Nat),
    isChain m a (xs ++ y :: ys) b ↔ (isChain m a xs y ∧ isChain m y ys b) := by
  induction xs with
  | nil =>
    intro a y ys b
    simp only [List.nil_append, isChain]
    tauto
  | cons x xs ih =>
    intro a y ys b
    simp only [List.cons_append, isChain, List.append_eq, ih x y ys b]
    tauto

theorem isChain_snoc (m : Mem) (a : Nat) (xs : List Nat) (t b : Nat) :
    isChain m a (xs ++ [t]) b ↔
      (isChain m a xs t ∧ readNext m t = b ∧ readPrev m b = t) := by
  rw [isChain_split]
  simp only [isChain]

theorem isChain_head (m : Mem) (a : Nat) (xs : List Nat) (b : Nat) (hc : isChain m a xs b) :
    readNext m a ∈ xs ++ [b] ∧ readPrev m (readNext m a) = a := by
  cases xs with
  | nil =>
    simp only [isChain] at hc
    rw [hc.1]
    exact ⟨by simp, hc.2⟩
  | cons x xs =>
    simp only [isChain] at hc
    rw [hc.1]
    exact ⟨by simp, hc.2.1⟩

theorem isChain_prev_last (m : Mem) (xs : List Nat) : ∀ (a b : Nat), isChain m a xs b →
    readPrev m b ∈ a :: xs ∧ readNext m (readPrev m b) = b := by
  induction xs with
  | nil =>
    intro a b hc
    simp only [isChain] at hc
    rw [hc.2]
    exact ⟨by simp, hc.1⟩
  | cons x xs ih =>
    intro a b hc
    simp only [isChain] at hc
    obtain ⟨h1, h2⟩ := ih x b hc.2.2
    exact ⟨by simp only [List.mem_cons] at h1 ⊢; tauto, h2⟩

theorem isChain_prev_getLast (m : Mem) (xs : List Nat) : ∀ (a b : Nat),
    isChain m a xs b → readPrev m b = (a :: xs).getLast (List.cons_ne_nil a xs) := by
  induction xs with
  | nil =>
    intro a b hc
    simp only [isChain] at hc
    simp [hc.2]
  | cons x xs ih =>
    intro a b hc
    simp only [isChain] at hc
    rw [List.getLast_cons (List.cons_ne_nil x xs)]
    exact ih x b hc.2.2

theorem isChain_mem (m : Mem) (xs : List Nat) : ∀ (a b : Nat), isChain m a xs b →
    ∀ x ∈ xs, readPrev m (readNext m x) = x ∧ readNext m (readPrev m x) = x ∧
      readNext m x ∈ xs ++ [b] ∧ readPrev m x ∈ a :: xs := by
  induction xs with
  | nil =>
    intro a b _ x hx
    simp at hx
  | cons y ys ih =>
    intro a b hc x hx
    simp only [isChain] at hc
    obtain ⟨h1, h2, h3⟩ := hc
    rcases List.mem_cons.mp hx with rfl | hx2
    · obtain ⟨hh1, hh2⟩ := isChain_head m x ys b h3
      refine ⟨hh2, by rw [h2, h1], ?_, ?_⟩
      · simp only [List.cons_append, List.mem_cons, List.mem_append] at hh1 ⊢
        tauto
      · rw [h2]
        simp
    · obtain ⟨p1, p2, p3, p4⟩ := ih y b h3 x hx2
      refine ⟨p1, p2, ?_, ?_⟩
      · simp only [List.cons_append, List.mem_cons, List.mem_append] at p3 ⊢
        tauto
      · simp only [List.mem_cons] at p4 ⊢
        tauto

theorem ring_nodeInv (m : Mem) (h : Nat) (xs : List Nat)
    (hc : isChain m h xs h) (hv : ∀ y ∈ h :: xs, y ≠ MT_LIST_BUSY) :
    ∀ x ∈ h :: xs, nodeInv m x := by
  intro x hx
  rcases List.mem_cons.mp hx with rfl | hx2
  · obtain ⟨hd1, hd2⟩ := isChain_head m x xs x hc
    obtain ⟨hl1, hl2⟩ := isChain_prev_last m xs x x hc
    refine ⟨hd2, hl2, hv _ ?_, hv _ hl1⟩
    simp only [List.mem_append, List.mem_cons] at hd1 ⊢
    tauto
  · obtain ⟨p1, p2, p3, p4⟩ := isChain_mem m xs h h hc x hx2
    refine ⟨p1, p2, hv _ ?_, hv _ p4⟩
    simp only [List.mem_append, List.mem_cons] at p3 ⊢
    tauto

theorem append_ring (m : Mem) (el1 el2 : Nat) (xs : List Nat)
    (hc : isChain m el1 xs el1) (hnd : (el1 :: xs).Nodup) (hf : el2 ∉ el1 :: xs) :
    isChain (mt_list_append m el1 el2) el1 (xs ++ [el2]) el1 := by
  simp only [List.mem_cons, not_or] at hf
  obtain ⟨hne, hf2⟩ := hf
  rcases List.eq_nil_or_concat xs with rfl | ⟨ys, t, rfl⟩
  · simp only [isChain] at hc
    obtain ⟨h1, h2⟩ := hc
    simp only [List.nil_append, isChain, mt_list_append, h2]
    refine ⟨?_, ?_, ?_, ?_⟩ <;> simp [hne, Ne.symm hne]
  · simp only [List.concat_eq_append] at hc hnd hf2 ⊢
    rw [isChain_snoc] at hc
    obtain ⟨hcy, hnt, hpe⟩ := hc
    simp only [List.nodup_cons, List.mem_append, List.mem_singleton, not_or] at hnd
    obtain ⟨⟨he1y, he1t⟩, hnd2⟩ := hnd
    have htys : t ∉ ys := by
      intro hmem
      have := List.disjoint_of_nodup_append hnd2
      exact this hmem (by simp)
    simp only [List.mem_append, List.mem_singleton, not_or] at hf2
    obtain ⟨hf2y, hf2t⟩ := hf2
    rw [List.append_assoc]
    simp only [List.singleton_append]
    rw [isChain_split]
    constructor
    · apply isChain_frame m _ ys el1 t ?_ ?_ hcy
      · intro y hy
        have hyt : y ≠ t := by
          rcases List.mem_cons.mp hy with rfl | hy2
          · exact he1t
          · exact fun hh => htys (hh ▸ hy2)
        have hye2 : y ≠ el2 := by
          rcases List.mem_cons.mp hy with rfl | hy2
          · exact fun hh => hne hh.symm
          · exact fun hh => hf2y (hh ▸ hy2)
        simp [mt_list_append, hpe, hyt, hye2]
      · intro y hy
        have hye1 : y ≠ el1 := by
          rcases List.mem_append.mp hy with hy2 | hy2
          · exact fun hh => he1y (hh ▸ hy2)
          · simp only [List.mem_singleton] at hy2
            exact fun hh => he1t (hh ▸ hy2 ▸ rfl)
        have hye2 : y ≠ el2 := by
          rcases List.mem_append.mp hy with hy2 | hy2
          · exact fun hh => hf2y (hh ▸ hy2)
          · simp only [List.mem_singleton] at hy2
            exact fun hh => hf2t (hh ▸ hy2 ▸ rfl)
        simp [mt_list_append, hpe, hye1, hye2]
    · simp only [isChain, mt_list_append, hpe]
      have h1 : t ≠ el2 := fun hh => hf2t hh.symm
      have h2 : el1 ≠ el2 := fun hh => hne hh.symm
      have h3 : el1 ≠ t := fun hh => he1t hh
      refine ⟨?_, ?_, ?_, ?_⟩ <;> simp [hne, h1, h2, h3, Ne.symm hne]

theorem insert_ring (m : Mem) (el1 el2 : Nat) (xs : List Nat)
    (hc : isChain m el1 xs el1) (hnd : (el1 :: xs).Nodup) (hf : el2 ∉ el1 :: xs) :
    isChain (mt_list_insert m el1 el2) el1 (el2 :: xs) el1 := by
  simp only [List.mem_cons, not_or] at hf
  obtain ⟨hne, hf2⟩ := hf
  cases xs with
  | nil =>
    simp only [isChain] at hc
    obtain ⟨h1, h2⟩ := hc
    simp only [isChain, mt_list_insert, h1]
    refine ⟨?_, ?_, ?_, ?_⟩ <;> simp [hne, Ne.symm hne]
  | cons x rest =>
    simp only [isChain] at hc
    obtain ⟨h1, h2, h3⟩ := hc
    simp only [List.nodup_cons, List.mem_cons, not_or] at hnd
    obtain ⟨⟨he1x, he1r⟩, hxr, hndr⟩ := hnd
    simp only [List.mem_cons, not_or] at hf2
    obtain ⟨hf2x, hf2r⟩ := hf2
    simp only [isChain, mt_list_insert, h1]
    have hxe2 : x ≠ el2 := fun hh => hf2x hh.symm
    have hxe1 : x ≠ el1 := fun hh => he1x hh.symm
    have he1e2 : el1 ≠ el2 := fun hh => hne hh.symm
    refine ⟨by simp [Ne.symm hne, he1e2, hxe1, hxe2], by simp [hxe2, Ne.symm hne],
      by simp [Ne.symm hne, hxe2], by simp [hxe2, Ne.symm hne, hxe1], ?_⟩
    apply isChain_frame m _ rest x el1 ?_ ?_ h3
    · intro y hy
      have hye1 : y ≠ el1 := by
        rcases List.mem_cons.mp hy with rfl | hy2
        · exact hxe1
        · exact fun hh => he1r (hh ▸ hy2)
      have hye2 : y ≠ el2 := by
        rcases List.mem_cons.mp hy with rfl | hy2
        · exact hxe2
        · exact fun hh => hf2r (hh ▸ hy2)
      simp [mt_list_insert, h1, hye1, hye2]
    · intro y hy
      have hyx : y ≠ x := by
        rcases List.mem_append.mp hy with hy2 | hy2
        · exact fun hh => hxr (hh ▸ hy2)
        · simp only [List.mem_singleton] at hy2
          subst hy2
          exact fun hh => he1x hh
      have hye2 : y ≠ el2 := by
        rcases List.mem_append.mp hy with hy2 | hy2
        · exact fun hh => hf2r (hh ▸ hy2)
        · simp only [List.mem_singleton] at hy2
          subst hy2
          exact fun hh => hne hh.symm
      simp [mt_list_insert, h1, hyx, hye2]

theorem delete_ring (m : Mem) (el x : Nat) (rest : List Nat)
    (hc : isChain m el (x :: rest) el) (hnd : (el :: x :: rest).Nodup) :
    (mt_list_delete m el).1 = true ∧
      isChain (mt_list_delete m el).2 x rest x ∧
      readNext (mt_list_delete m el).2 el = el ∧ readPrev (mt_list_delete m el).2 el = el := by
  simp only [isChain] at hc
  obtain ⟨h1, h2, h3⟩ := hc
  simp only [List.nodup_cons, List.mem_cons, not_or] at hnd
  obtain ⟨⟨helx, helr⟩, hxr, hndr⟩ := hnd
  have hxel : x ≠ el := fun hh => helx hh.symm
  rcases List.eq_nil_or_concat rest with rfl | ⟨rs, L, rfl⟩
  · simp only [isChain] at h3
    obtain ⟨h4, h5⟩ := h3
    simp only [mt_list_delete, h1, h5, hxel, if_false, isChain]
    refine ⟨trivial, ⟨?_, ?_⟩, ?_, ?_⟩ <;> simp [hxel, Ne.symm hxel]
  · simp only [List.concat_eq_append] at h3 helr hxr hndr ⊢
    rw [isChain_snoc] at h3
    obtain ⟨hcy, hnL, hpel⟩ := h3
    simp only [List.mem_append, List.mem_singleton, not_or] at helr hxr
    obtain ⟨helrs, helL⟩ := helr
    obtain ⟨hxrs, hxL⟩ := hxr
    have hLrs : L ∉ rs := by
      intro hmem
      exact List.disjoint_of_nodup_append hndr hmem (by simp)
    have hLel : L ≠ el := fun hh => helL hh.symm
    simp only [mt_list_delete, h1, hpel, hxel, if_false]
    refine ⟨trivial, ?_, by simp [Ne.symm hLel, Ne.symm hxel, helx, hxel],
      by simp [Ne.symm hxel, helx, Ne.symm hLel]⟩
    rw [isChain_snoc]
    refine ⟨?_, by simp [hLel, Ne.symm hxel, hxel], by simp [hxel, hxL]⟩
    apply isChain_frame m _ rs x L ?_ ?_ hcy
    · intro y hy
      have hyL : y ≠ L := by
        rcases List.mem_cons.mp hy with rfl | hy2
        · exact fun hh => hxL hh
        · exact fun hh => hLrs (hh ▸ hy2)
      have hyel : y ≠ el := by
        rcases List.mem_cons.mp hy with rfl | hy2
        · exact hxel
        · exact fun hh => helrs (hh ▸ hy2)
      simp [hyL, hyel]
    · intro y hy
      have hyx : y ≠ x := by
        rcases List.mem_append.mp hy with hy2 | hy2
        · exact fun hh => hxrs (hh ▸ hy2)
        · simp only [List.mem_singleton] at hy2
          subst hy2
          exact fun hh => hxL hh.symm
      have hyel : y ≠ el := by
        rcases List.mem_append.mp hy with hy2 | hy2
        · exact fun hh => helrs (hh ▸ hy2)
        · simp only [List.mem_singleton] at hy2
          subst hy2
          exact hLel
      simp [hyx, hyel]

theorem pop_ring (m : Mem) (h x : Nat) (rest : List Nat)
    (hc : isChain m h (x :: rest) h) (hnd : (h :: x :: rest).Nodup) :
    (mt_list_pop m h).1 = some x ∧
      isChain (mt_list_pop m h).2 h rest h ∧
      readNext (mt_list_pop m h).2 x = x ∧ readPrev (mt_list_pop m h).2 x = x := by
  simp only [isChain] at hc
  obtain ⟨h1, h2, h3⟩ := hc
  simp only [List.nodup_cons, List.mem_cons, not_or] at hnd
  obtain ⟨⟨hhx, hhr⟩, hxr, hndr⟩ := hnd
  have hxh : x ≠ h := fun hh => hhx hh.symm
  cases rest with
  | nil =>
    simp only [isChain] at h3
    obtain ⟨h4, h5⟩ := h3
    simp only [mt_list_pop, h1, h4, hxh, if_false, isChain]
    refine ⟨trivial, ⟨?_, ?_⟩, ?_, ?_⟩ <;> simp [hxh, Ne.symm hxh]
  | cons r rs =>
    simp only [isChain] at h3
    obtain ⟨h4, h5, h6⟩ := h3
    simp only [List.mem_cons, not_or] at hhr hxr
    obtain ⟨hhr1, hhrs⟩ := hhr
    obtain ⟨hxr1, hxrs⟩ := hxr
    simp only [List.nodup_cons] at hndr
    obtain ⟨hrrs, hndrs⟩ := hndr
    have hrh : r ≠ h := fun hh => hhr1 hh.symm
    have hrx : r ≠ x := fun hh => hxr1 hh.symm
    simp only [mt_list_pop, h1, h4, hxh, if_false, isChain]
    refine ⟨trivial, ⟨by simp [hrh, hxh, Ne.symm hrx, hhx], by simp [hrx, hxh, hrh, hhx], ?_⟩,
      by simp [hxh, hhx], by simp [hxh, hhx]⟩
    apply isChain_frame m _ rs r h ?_ ?_ h6
    · intro y hy
      have hyh : y ≠ h := by
        rcases List.mem_cons.mp hy with rfl | hy2
        · exact hrh
        · exact fun hh => hhrs (hh ▸ hy2)
      have hyx : y ≠ x := by
        rcases List.mem_cons.mp hy with rfl | hy2
        · exact hrx
        · exact fun hh => hxrs (hh ▸ hy2)
      simp [hyh, hyx]
    · intro y hy
      have hyr : y ≠ r := by
        rcases List.mem_append.mp hy with hy2 | hy2
        · exact fun hh => hrrs (hh ▸ hy2)
        · simp only [List.mem_singleton] at hy2
          subst hy2
          exact Ne.symm hrh
      have hyx : y ≠ x := by
        rcases List.mem_append.mp hy with hy2 | hy2
        · exact fun hh => hxrs (hh ▸ hy2)
        · simp only [List.mem_singleton] at hy2
          subst hy2
          exact Ne.symm hxh
      simp [hyr, hyx]

theorem behead_state (m : Mem) (h : Nat)
    (hf : readNext m h ≠ h) (hl : readPrev m h ≠ h) :
    (mt_list_behead m h).1 = some (readNext m h) ∧
      readNext (mt_list_behead m h).2 h = h ∧
      readPrev (mt_list_behead m h).2 h = h ∧
      readPrev (mt_list_behead m h).2 (readNext m h) = readPrev m h ∧
      readNext (mt_list_behead m h).2 (readPrev m h) = NULLptr ∧
      (∀ a, a ≠ h → a ≠ readNext m h → a ≠ readPrev m h →
        (mt_list_behead m h).2 a = m a) := by
  have hf2 : h ≠ readNext m h := Ne.symm hf
  have hl2 : h ≠ readPrev m h := Ne.symm hl
  simp only [mt_list_behead, hf, if_false]
  refine ⟨trivial, by simp [hf, hl, hf2, hl2], by simp [hf, hl, hf2, hl2],
    by simp [hf, hl, hf2, hl2], by simp [hf, hl, hf2, hl2], ?_⟩
  intro a ha1 ha2 ha3
  simp only [writeNext, writePrev, ha1, ha2, ha3, if_false]

theorem chain_to_open (m m2 : Mem) : ∀ (x : Nat) (rest : List Nat) (b : Nat),
    isChain m x rest b → (x :: rest).Nodup →
    (∀ y ∈ x :: rest, y ≠ (x :: rest).getLast (List.cons_ne_nil x rest) →
      readNext m2 y = readNext m y) →
    (∀ y ∈ rest, readPrev m2 y = readPrev m y) →
    readNext m2 ((x :: rest).getLast (List.cons_ne_nil x rest)) = NULLptr →
    isOpenChain m2 (x :: rest) := by
  intro x rest
  induction rest generalizing x with
  | nil =>
    intro b hc hnd hn hp hlast
    simpa [isOpenChain] using hlast
  | cons y ys ih =>
    intro b hc hnd hn hp hlast
    simp only [isChain] at hc
    obtain ⟨h1, h2, h3⟩ := hc
    simp only [List.nodup_cons, List.mem_cons, not_or] at hnd
    obtain ⟨⟨hxy, hxys⟩, hnd2⟩ := hnd
    have hglmem : (y :: ys).getLast (List.cons_ne_nil y ys) ∈ y :: ys :=
      List.getLast_mem (List.cons_ne_nil y ys)
    have hxgl : x ≠ (y :: ys).getLast (List.cons_ne_nil y ys) := by
      rcases List.mem_cons.mp hglmem with hg | hg
      · rw [← hg] at hxy
        exact hxy
      · exact fun hh => hxys (hh ▸ hg)
    have hglcast : (x :: y :: ys).getLast (List.cons_ne_nil x (y :: ys)) =
        (y :: ys).getLast (List.cons_ne_nil y ys) := List.getLast_cons (List.cons_ne_nil y ys)
    simp only [isOpenChain]
    refine ⟨?_, ?_, ?_⟩
    · rw [hn x (by simp) (by rw [hglcast]; exact hxgl)]
      exact h1
    · rw [hp y (by simp)]
      exact h2
    · apply ih y b h3 (by simp [List.nodup_cons, hnd2])
        (fun z hz hzgl => hn z (by simp only [List.mem_cons] at hz ⊢; tauto)
          (by rw [hglcast]; exact hzgl))
        (fun z hz => hp z (by simp only [List.mem_cons] at hz ⊢; tauto))
        (by rw [← hglcast]; exact hlast)

theorem cut_after_connect_restores (m : Mem) (el : Nat)
    (h1 : readPrev m (readNext m el) = el) :
    ∀ a, mt_list_connect_ends (mt_list_cut_after m el).2 (mt_list_cut_after m el).1 a = m a := by
  intro a
  apply mtlist_eq_of
  · show readNext (mt_list_connect_ends (mt_list_cut_after m el).2 (mt_list_cut_after m el).1) a =
      readNext m a
    simp only [mt_list_cut_after, mt_list_connect_ends, readNext_writeNext, readPrev_writeNext,
      readNext_writePrev, readPrev_writePrev]
    split_ifs with hcase
    · rw [hcase]
    · rfl
  · show readPrev (mt_list_connect_ends (mt_list_cut_after m el).2 (mt_list_cut_after m el).1) a =
      readPrev m a
    simp only [mt_list_cut_after, mt_list_connect_ends, readNext_writeNext, readPrev_writeNext,
      readNext_writePrev, readPrev_writePrev]
    split_ifs with hcase
    · rw [hcase, h1]
    · rfl

theorem cut_before_connect_restores (m : Mem) (el : Nat)
    (h1 : readNext m (readPrev m el) = el) :
    ∀ a, mt_list_connect_ends (mt_list_cut_before m el).2 (mt_list_cut_before m el).1 a = m a := by
  intro a
  apply mtlist_eq_of
  · show readNext (mt_list_connect_ends (mt_list_cut_before m el).2 (mt_list_cut_before m el).1) a =
      readNext m a
    simp only [mt_list_cut_before, mt_list_connect_ends, readNext_writeNext, readPrev_writeNext,
      readNext_writePrev, readPrev_writePrev]
    split_ifs with hcase
    · rw [hcase, h1]
    · rfl
  · show readPrev (mt_list_connect_ends (mt_list_cut_before m el).2 (mt_list_cut_before m el).1) a =
      readPrev m a
    simp only [mt_list_cut_before, mt_list_connect_ends, readNext_writeNext, readPrev_writeNext,
      readNext_writePrev, readPrev_writePrev]
    split_ifs with hcase
    · rw [hcase]
    · rfl

theorem cut_around_connect_elem_restores (m : Mem) (el : Nat)
    (h1 : readPrev m (readNext m el) = el) (h2 : readNext m (readPrev m el) = el) :
    ∀ a, mt_list_connect_elem (mt_list_cut_around m el).2 el (mt_list_cut_around m el).1 a = m a := by
  intro a
  apply mtlist_eq_of
  · show readNext (mt_list_connect_elem (mt_list_cut_around m el).2 el
      (mt_list_cut_around m el).1) a = readNext m a
    simp only [mt_list_cut_around, mt_list_connect_elem, readNext_writeNext, readPrev_writeNext,
      readNext_writePrev, readPrev_writePrev]
    split_ifs with hc1 hc2
    · rw [hc1]
    · rw [hc2, h2]
    · rfl
  · show readPrev (mt_list_connect_elem (mt_list_cut_around m el).2 el
      (mt_list_cut_around m el).1) a = readPrev m a
    simp only [mt_list_cut_around, mt_list_connect_elem, readNext_writeNext, readPrev_writeNext,
      readNext_writePrev, readPrev_writePrev]
    split_ifs with hc1 hc2
    · rw [hc1, h1]
    · rw [hc2]
    · rfl

theorem nodeInv_of_selfloop (m : Mem) (x : Nat)
    (h1 : readNext m x = x) (h2 : readPrev m x = x) (h3 : x ≠ MT_LIST_BUSY) : nodeInv m x := by
  refine ⟨?_, ?_, ?_, ?_⟩ <;> simp [h1, h2, h3]

theorem append_nodeInv (m : Mem) (el1 el2 : Nat) (xs : List Nat)
    (hc : isChain m el1 xs el1) (hnd : (el1 :: xs).Nodup) (hf : el2 ∉ el1 :: xs)
    (hv : ∀ y ∈ el1 :: xs, y ≠ MT_LIST_BUSY) (hv2 : el2 ≠ MT_LIST_BUSY) :
    ∀ x ∈ el1 :: (xs ++ [el2]), nodeInv (mt_list_append m el1 el2) x := by
  apply ring_nodeInv _ el1 (xs ++ [el2]) (append_ring m el1 el2 xs hc hnd hf)
  intro y hy
  by_cases hyel2 : y = el2
  · subst hyel2
    exact hv2
  · refine hv y ?_
    simp only [List.mem_cons, List.mem_append, List.mem_singleton] at hy ⊢
    tauto

theorem insert_nodeInv (m : Mem) (el1 el2 : Nat) (xs : List Nat)
    (hc : isChain m el1 xs el1) (hnd : (el1 :: xs).Nodup) (hf : el2 ∉ el1 :: xs)
    (hv : ∀ y ∈ el1 :: xs, y ≠ MT_LIST_BUSY) (hv2 : el2 ≠ MT_LIST_BUSY) :
    ∀ x ∈ el1 :: el2 :: xs, nodeInv (mt_list_insert m el1 el2) x := by
  apply ring_nodeInv _ el1 (el2 :: xs) (insert_ring m el1 el2 xs hc hnd hf)
  intro y hy
  by_cases hyel2 : y = el2
  · subst hyel2
    exact hv2
  · refine hv y ?_
    simp only [List.mem_cons] at hy ⊢
    tauto

/-- C1 (amended): for append, try_append, insert, try_insert, delete and pop
on a well-formed ring, every node of the resulting structure — in particular
every node the operation touched — satisfies X.next.prev = X, X.prev.next = X
and has no BUSY link once the operation has returned; the cut/connect pairs
cut_after + connect_ends, cut_before + connect_ends and
cut_around + connect_elem restore the heap exactly, so they preserve the
invariants of every touched node.  For behead the guarantee holds for the
head only: the detached chain is deliberately left as a linear open chain
(see the counterexample). -/
theorem c1_invariants :
    (∀ m el1 el2 xs, isChain m el1 xs el1 → (el1 :: xs).Nodup → el2 ∉ el1 :: xs →
      (∀ y ∈ el1 :: xs, y ≠ MT_LIST_BUSY) → el2 ≠ MT_LIST_BUSY →
      ∀ x ∈ el1 :: (xs ++ [el2]), nodeInv (mt_list_append m el1 el2) x) ∧
    (∀ m el1 el2 xs, isChain m el1 xs el1 → (el1 :: xs).Nodup → el2 ∉ el1 :: xs →
      (∀ y ∈ el1 :: xs, y ≠ MT_LIST_BUSY) → el2 ≠ MT_LIST_BUSY → detached m el2 →
      (mt_list_try_append m el1 el2).1 = true ∧
      ∀ x ∈ el1 :: (xs ++ [el2]), nodeInv (mt_list_try_append m el1 el2).2 x) ∧
    (∀ m el1 el2 xs, isChain m el1 xs el1 → (el1 :: xs).Nodup → el2 ∉ el1 :: xs →
      (∀ y ∈ el1 :: xs, y ≠ MT_LIST_BUSY) → el2 ≠ MT_LIST_BUSY →
      ∀ x ∈ el1 :: el2 :: xs, nodeInv (mt_list_insert m el1 el2) x) ∧
    (∀ m el1 el2 xs, isChain m el1 xs el1 → (el1 :: xs).Nodup → el2 ∉ el1 :: xs →
      (∀ y ∈ el1 :: xs, y ≠ MT_LIST_BUSY) → el2 ≠ MT_LIST_BUSY → detached m el2 →
      (mt_list_try_insert m el1 el2).1 = true ∧
      ∀ x ∈ el1 :: el2 :: xs, nodeInv (mt_list_try_insert m el1 el2).2 x) ∧
    (∀ m el x rest, isChain m el (x :: rest) el → (el :: x :: rest).Nodup →
      (∀ y ∈ el :: x :: rest, y ≠ MT_LIST_BUSY) →
      (mt_list_delete m el).1 = true ∧
      ∀ y ∈ el :: x :: rest, nodeInv (mt_list_delete m el).2 y) ∧
    (∀ m h x rest, isChain m h (x :: rest) h → (h :: x :: rest).Nodup →
      (∀ y ∈ h :: x :: rest, y ≠ MT_LIST_BUSY) →
      (mt_list_pop m h).1 = some x ∧
      ∀ y ∈ h :: x :: rest, nodeInv (mt_list_pop m h).2 y) ∧
    (∀ m h xs, isChain m h xs h → (h :: xs).Nodup → h ≠ MT_LIST_BUSY →
      nodeInv (mt_list_behead m h).2 h) ∧
    (∀ m el, readPrev m (readNext m el) = el →
      ∀ a, mt_list_connect_ends (mt_list_cut_after m el).2 (mt_list_cut_after m el).1 a = m a) ∧
    (∀ m el, readNext m (readPrev m el) = el →
      ∀ a, mt_list_connect_ends (mt_list_cut_before m el).2 (mt_list_cut_before m el).1 a = m a) ∧
    (∀ m el, readPrev m (readNext m el) = el → readNext m (readPrev m el) = el →
      ∀ a, mt_list_connect_elem (mt_list_cut_around m el).2 el (mt_list_cut_around m el).1 a
        = m a) := by
  refine ⟨?_, ?_, ?_, ?_, ?_, ?_, ?_, ?_, ?_, ?_⟩
  · intro m el1 el2 xs hc hnd hf hv hv2
    exact append_nodeInv m el1 el2 xs hc hnd hf hv hv2
  · intro m el1 el2 xs hc hnd hf hv hv2 hdet
    have heq : mt_list_try_append m el1 el2 = (true, mt_list_append m el1 el2) := by
      simp [mt_list_try_append, hdet.1, hdet.2]
    rw [heq]
    exact ⟨rfl, append_nodeInv m el1 el2 xs hc hnd hf hv hv2⟩
  · intro m el1 el2 xs hc hnd hf hv hv2
    exact insert_nodeInv m el1 el2 xs hc hnd hf hv hv2
  · intro m el1 el2 xs hc hnd hf hv hv2 hdet
    have heq : mt_list_try_insert m el1 el2 = (true, mt_list_insert m el1 el2) := by
      simp [mt_list_try_insert, hdet.1, hdet.2]
    rw [heq]
    exact ⟨rfl, insert_nodeInv m el1 el2 xs hc hnd hf hv hv2⟩
  · intro m el x rest hc hnd hv
    obtain ⟨hret, hring, hn1, hn2⟩ := delete_ring m el x rest hc hnd
    refine ⟨hret, ?_⟩
    intro y hy
    by_cases hyel : y = el
    · subst hyel
      exact nodeInv_of_selfloop _ y hn1 hn2 (hv y (by simp))
    · have hy2 : y ∈ x :: rest := by
        simp only [List.mem_cons] at hy ⊢
        tauto
      apply ring_nodeInv _ x rest hring ?_ y hy2
      intro z hz
      exact hv z (by simp only [List.mem_cons] at hz ⊢; tauto)
  · intro m h x rest hc hnd hv
    obtain ⟨hret, hring, hn1, hn2⟩ := pop_ring m h x rest hc hnd
    refine ⟨hret, ?_⟩
    intro y hy
    by_cases hyx : y = x
    · subst hyx
      exact nodeInv_of_selfloop _ y hn1 hn2 (hv y (by simp))
    · have hy2 : y ∈ h :: rest := by
        simp only [List.mem_cons] at hy ⊢
        tauto
      apply ring_nodeInv _ h rest hring ?_ y hy2
      intro z hz
      exact hv z (by simp only [List.mem_cons] at hz ⊢; tauto)
  · intro m h xs hc hnd hv1
    cases xs with
    | nil =>
      simp only [isChain] at hc
      have heq : mt_list_behead m h = (none, m) := by
        simp [mt_list_behead, hc.1]
      rw [heq]
      exact nodeInv_of_selfloop m h hc.1 hc.2 hv1
    | cons x rest =>
      have hxh : x ≠ h := by
        have hh := (List.nodup_cons.mp hnd).1
        simp only [List.mem_cons, not_or] at hh
        exact fun he => hh.1 he.symm
      have hfne : readNext m h ≠ h := by
        have h1 : readNext m h = x := by
          simp only [isChain] at hc
          exact hc.1
        rw [h1]
        exact hxh
      have hlne : readPrev m h ≠ h := by
        intro hh
        obtain ⟨hm1, hm2⟩ := isChain_prev_last m (x :: rest) h h hc
        rw [hh] at hm2
        rw [hm2] at hfne
        exact hfne rfl
      obtain ⟨_, hb1, hb2, _, _, _⟩ := behead_state m h hfne hlne
      exact nodeInv_of_selfloop _ h hb1 hb2 hv1
  · intro m el h1 a
    exact cut_after_connect_restores m el h1 a
  · intro m el h1 a
    exact cut_before_connect_restores m el h1 a
  · intro m el h1 h2 a
    exact cut_around_connect_elem_restores m el h1 h2 a

/-- C1 counterexample: on the one-element ring with head 10 and element 20,
behead returns element 20 — a touched node, since its prev link was written —
yet once the operation has returned, node 20 has next = NULL and violates
X.next.prev = X.  The original claim, which includes behead among the
operations, is therefore false. -/
theorem c1_behead_counterexample :
    (mt_list_behead mRing1 10).1 = some 20 ∧
      readNext (mt_list_behead mRing1 10).2 20 = NULLptr ∧
      ¬ nodeInv (mt_list_behead mRing1 10).2 20 := by
  decide

/-- C1 witness: the append conjunct of the amended claim applied to the
concrete ring 10-20-30 with fresh detached node 40. -/
theorem c1_witness :
    isChain mRing3 10 [20, 30] 10 ∧ nodeInv (mt_list_append mRing3 10 40) 40 :=
  ⟨by decide,
   c1_invariants.1 mRing3 10 40 [20, 30] (by decide) (by decide) (by decide) (by decide)
     (by decide) 40 (by decide)⟩

/-- C2: every not-applicable invocation — delete on a detached node,
try_append or try_insert on a node that is not detached (already in a list),
pop on an empty head — returns false (NULL/none for pop) and leaves every
node of the heap unchanged. -/
theorem c2_not_applicable_unchanged :
    (∀ m el, detached m el →
      (mt_list_delete m el).1 = false ∧ ∀ a, (mt_list_delete m el).2 a = m a) ∧
    (∀ m el1 el2, ¬ detached m el2 →
      (mt_list_try_append m el1 el2).1 = false ∧
      ∀ a, (mt_list_try_append m el1 el2).2 a = m a) ∧
    (∀ m el1 el2, ¬ detached m el2 →
      (mt_list_try_insert m el1 el2).1 = false ∧
      ∀ a, (mt_list_try_insert m el1 el2).2 a = m a) ∧
    (∀ m h, readNext m h = h →
      (mt_list_pop m h).1 = none ∧ ∀ a, (mt_list_pop m h).2 a = m a) := by
  refine ⟨?_, ?_, ?_, ?_⟩
  · intro m el hdet
    simp [mt_list_delete, hdet.1]
  · intro m el1 el2 hnd
    have hcond : ¬(readNext m el2 = el2 ∧ readPrev m el2 = el2) := by
      simpa [detached] using hnd
    simp [mt_list_try_append, hcond]
  · intro m el1 el2 hnd
    have hcond : ¬(readNext m el2 = el2 ∧ readPrev m el2 = el2) := by
      simpa [detached] using hnd
    simp [mt_list_try_insert, hcond]
  · intro m h hemp
    simp [mt_list_pop, hemp]

/-- C2 witness: delete on the detached node 50 of the all-detached heap, and
pop on the empty head 10 of the same heap. -/
theorem c2_witness :
    detached mInit 50 ∧ (mt_list_delete mInit 50).1 = false ∧
      (mt_list_delete mInit 50).2 77 = mInit 77 ∧
      (mt_list_pop mInit 10).1 = none := by
  refine ⟨by decide, (c2_not_applicable_unchanged.1 mInit 50 (by decide)).1,
    (c2_not_applicable_unchanged.1 mInit 50 (by decide)).2 77,
    (c2_not_applicable_unchanged.2.2.2 mInit 10 (by decide)).1⟩

/-- C4 (amended): cut_around(n) followed by connect_ends(token) produces the
same heap as delete(n) at every address other than n itself, so the list no
longer contains n and the remaining list is identical to the one produced by
delete(n); but at n the two differ — the composite leaves both of n's links
holding BUSY, whereas delete leaves n detached (self-looped). -/
theorem c4_cut_connect_vs_delete (m : Mem) (el : Nat)
    (hn : readNext m el ≠ el) (hp : readPrev m el ≠ el) :
    (∀ a, a ≠ el →
      mt_list_connect_ends (mt_list_cut_around m el).2 (mt_list_cut_around m el).1 a =
        (mt_list_delete m el).2 a) ∧
    readNext (mt_list_connect_ends (mt_list_cut_around m el).2 (mt_list_cut_around m el).1) el =
      MT_LIST_BUSY ∧
    readPrev (mt_list_connect_ends (mt_list_cut_around m el).2 (mt_list_cut_around m el).1) el =
      MT_LIST_BUSY ∧
    readNext (mt_list_delete m el).2 el = el ∧
    readPrev (mt_list_delete m el).2 el = el ∧
    (mt_list_delete m el).1 = true := by
  have hn2 : el ≠ readNext m el := Ne.symm hn
  have hp2 : el ≠ readPrev m el := Ne.symm hp
  refine ⟨?_, by simp [mt_list_cut_around, mt_list_connect_ends, hn2, hp2],
    by simp [mt_list_cut_around, mt_list_connect_ends, hn2, hp2],
    by simp [mt_list_delete, hn, hn2, hp2],
    by simp [mt_list_delete, hn, hn2, hp2],
    by simp [mt_list_delete, hn]⟩
  intro a ha
  apply mtlist_eq_of
  · show readNext (mt_list_connect_ends (mt_list_cut_around m el).2 (mt_list_cut_around m el).1) a
      = readNext (mt_list_delete m el).2 a
    simp only [mt_list_cut_around, mt_list_connect_ends, mt_list_delete, hn, if_false,
      readNext_writeNext, readPrev_writeNext, readNext_writePrev, readPrev_writePrev]
    split_ifs <;> simp_all
  · show readPrev (mt_list_connect_ends (mt_list_cut_around m el).2 (mt_list_cut_around m el).1) a
      = readPrev (mt_list_delete m el).2 a
    simp only [mt_list_cut_around, mt_list_connect_ends, mt_list_delete, hn, if_false,
      readNext_writeNext, readPrev_writeNext, readNext_writePrev, readPrev_writePrev]
    split_ifs <;> simp_all

/-- C4 counterexample: on the ring 10-20-30, cut_around(20) followed by
connect_ends does not produce a heap identical to the one produced by
delete(20): at node 20 the composite leaves BUSY links while delete leaves
the node self-looped. -/
theorem c4_counterexample :
    mt_list_connect_ends (mt_list_cut_around mRing3 20).2 (mt_list_cut_around mRing3 20).1 20 ≠
      (mt_list_delete mRing3 20).2 20 := by
  decide

/-- C4 witness: the amended equivalence applied to node 20 of the concrete
ring 10-20-30, evaluated at the surviving address 30. -/
theorem c4_witness :
    readNext mRing3 20 ≠ 20 ∧
      mt_list_connect_ends (mt_list_cut_around mRing3 20).2 (mt_list_cut_around mRing3 20).1 30 =
        (mt_list_delete mRing3 20).2 30 :=
  ⟨by decide,
   (c4_cut_connect_vs_delete mRing3 20 (by decide) (by decide)).1 30 (by decide)⟩

/-- C5: append(anchor, new_node) places new_node immediately before anchor —
anchor.prev becomes new_node, new_node.next is anchor, new_node.prev is the
old tail and the old tail's next is new_node; and in the concrete scenario
with head 10 initialized detached and nodes 20, 30, 40 appended in turn, the
forward walk from 10 visits 10,20,30,40,10 and the backward walk visits
10,40,30,20,10. -/
theorem c5_append_places_before :
    (∀ m el1 el2, el2 ≠ el1 → el2 ≠ readPrev m el1 →
      readNext (mt_list_append m el1 el2) el2 = el1 ∧
      readPrev (mt_list_append m el1 el2) el1 = el2 ∧
      readPrev (mt_list_append m el1 el2) el2 = readPrev m el1 ∧
      readNext (mt_list_append m el1 el2) (readPrev m el1) = el2) ∧
    walkNext (mt_list_append (mt_list_append (mt_list_append mInit 10 20) 10 30) 10 40) 10 4 =
      [10, 20, 30, 40, 10] ∧
    walkPrev (mt_list_append (mt_list_append (mt_list_append mInit 10 20) 10 30) 10 40) 10 4 =
      [10, 40, 30, 20, 10] := by
  refine ⟨?_, by decide, by decide⟩
  intro m el1 el2 h1 h2
  have h1s : el1 ≠ el2 := Ne.symm h1
  have h2s : readPrev m el1 ≠ el2 := Ne.symm h2
  refine ⟨by simp [mt_list_append], by simp [mt_list_append, h1s],
    by simp [mt_list_append], by simp [mt_list_append, h2s]⟩

/-- C5 witness: the placement property applied to appending node 20 before
head 10 in the all-detached heap. -/
theorem c5_witness :
    (20 : Nat) ≠ 10 ∧ (20 : Nat) ≠ readPrev mInit 10 ∧
      readNext (mt_list_append mInit 10 20) 20 = 10 :=
  ⟨by decide, by decide,
   (c5_append_places_before.1 mInit 10 20 (by decide) (by decide)).1⟩

/-- C6: behead on an empty head returns NULL and changes nothing; on a
non-empty list it returns the first element F, self-loops the head, sets
F.prev to the last element L and L.next to NULL, touches no other node, and
leaves the detached elements as a linear open chain; on a one-element list
the returned element ends with next = NULL and prev = itself. -/
theorem c6_behead :
    (∀ m h, readNext m h = h → mt_list_behead m h = (none, m)) ∧
    (∀ m h, readNext m h ≠ h → readPrev m h ≠ h →
      (mt_list_behead m h).1 = some (readNext m h) ∧
      readNext (mt_list_behead m h).2 h = h ∧
      readPrev (mt_list_behead m h).2 h = h ∧
      readPrev (mt_list_behead m h).2 (readNext m h) = readPrev m h ∧
      readNext (mt_list_behead m h).2 (readPrev m h) = NULLptr ∧
      (∀ a, a ≠ h → a ≠ readNext m h → a ≠ readPrev m h → (mt_list_behead m h).2 a = m a)) ∧
    (∀ m h, readNext m h ≠ h → readPrev m h = readNext m h →
      readNext (mt_list_behead m h).2 (readNext m h) = NULLptr ∧
      readPrev (mt_list_behead m h).2 (readNext m h) = readNext m h) ∧
    (∀ m h x rest, isChain m h (x :: rest) h → (h :: x :: rest).Nodup →
      isOpenChain (mt_list_behead m h).2 (x :: rest)) := by
  refine ⟨?_, ?_, ?_, ?_⟩
  · intro m h he
    simp [mt_list_behead, he]
  · intro m h hf hl
    exact behead_state m h hf hl
  · intro m h hf hl
    have hf2 : h ≠ readNext m h := Ne.symm hf
    simp only [mt_list_behead, hf, if_false]
    constructor
    · simp [hl]
    · simp [hl, hf2]
  · intro m h x rest hc hnd
    have hc2 := hc
    simp only [isChain] at hc2
    obtain ⟨h1, h2, h3⟩ := hc2
    have hnd0 := List.nodup_cons.mp hnd
    have hhmem : h ∉ x :: rest := hnd0.1
    have hndx : (x :: rest).Nodup := hnd0.2
    have hgl := isChain_prev_getLast m (x :: rest) h h hc
    rw [List.getLast_cons (List.cons_ne_nil x rest)] at hgl
    have hLmem : (x :: rest).getLast (List.cons_ne_nil x rest) ∈ x :: rest :=
      List.getLast_mem (List.cons_ne_nil x rest)
    have hxh : x ≠ h := fun he => hhmem (he ▸ List.mem_cons_self x rest)
    have hf : readNext m h ≠ h := by
      rw [h1]
      exact hxh
    apply chain_to_open m _ x rest h h3 hndx
    · intro y hy hygl
      have hyh : y ≠ h := fun he => hhmem (he ▸ hy)
      have hyl : y ≠ readPrev m h := by
        rw [hgl]
        exact hygl
      simp only [mt_list_behead, hf, if_false, readNext_writeNext, readPrev_writeNext,
        readNext_writePrev, readPrev_writePrev, hyh, hyl, if_false]
    · intro y hy
      have hyh : y ≠ h := fun he => hhmem (he ▸ List.mem_cons_of_mem x hy)
      have hyf : y ≠ readNext m h := by
        rw [h1]
        exact fun he => (List.nodup_cons.mp hndx).1 (he ▸ hy)
      simp only [mt_list_behead, hf, if_false, readNext_writeNext, readPrev_writeNext,
        readNext_writePrev, readPrev_writePrev, hyh, hyf, if_false]
    · rw [← hgl]
      simp [mt_list_behead, hf]

/-- C6 witness: behead applied to the one-element ring with head 10 and
element 20, through the non-empty-list conjunct. -/
theorem c6_witness :
    readNext mRing1 10 ≠ 10 ∧ readPrev mRing1 10 ≠ 10 ∧
      (mt_list_behead mRing1 10).1 = some (readNext mRing1 10) :=
  ⟨by decide, by decide, (c6_behead.2.1 mRing1 10 (by decide) (by decide)).1⟩

/-- C7: MT_LIST_BUSY is the constant address 1: it is non-null and differs
from every valid (non-null, pointer-aligned) node address, so comparing a
quiescent node's link against it unambiguously distinguishes locked from
unlocked. -/
theorem c7_busy_sentinel (a : Nat) (hv : validAddr a) :
    a ≠ MT_LIST_BUSY ∧ MT_LIST_BUSY ≠ NULLptr ∧ MT_LIST_BUSY = 1 := by
  obtain ⟨h0, h2⟩ := hv
  refine ⟨?_, by decide, rfl⟩
  intro hh
  rw [hh] at h2
  simp [MT_LIST_BUSY] at h2

/-- C7 witness: the valid node address 16 is distinct from the BUSY
sentinel. -/
theorem c7_witness : validAddr 16 ∧ (16 : Nat) ≠ MT_LIST_BUSY :=
  ⟨by decide, (c7_busy_sentinel 16 (by decide)).1⟩

/-- C8: a head initialized with MT_LIST_HEAD_INIT has both links pointing to
the node itself: every freshly initialized empty list head is detached. -/
theorem c8_head_init_detached (m : Mem) (l : Nat) :
    detached (mt_list_head_init m l) l ∧
      (MT_LIST_HEAD_INIT l).next = l ∧ (MT_LIST_HEAD_INIT l).prev = l := by
  refine ⟨⟨?_, ?_⟩, rfl, rfl⟩ <;>
    simp [mt_list_head_init, MT_LIST_HEAD_INIT, readNext, readPrev]

/-- C9: the enclosing-structure recovery helper is total and round-trips with
the embedding: for every structure address s and member offset off,
MT_LIST_ELEM applied to the member address s + off recovers s. -/
theorem c9_elem_roundtrip (s off : Nat) :
    MT_LIST_ELEM (memberAddr s off) off = s := by
  simp [MT_LIST_ELEM, memberAddr]

/-- C10: the navigation helpers are the recovery helper composed with the
link fields — MT_LIST_NEXT (resp. MT_LIST_PREV) is MT_LIST_ELEM of the next
(resp. prev) link — so when the neighbor node is itself embedded at the same
offset inside a structure, the helpers return that enclosing structure. -/
theorem c10_nav_compose :
    (∀ m a off, MT_LIST_NEXT m a off = MT_LIST_ELEM (readNext m a) off ∧
      MT_LIST_PREV m a off = MT_LIST_ELEM (readPrev m a) off) ∧
    (∀ m s s2 off, readNext m (memberAddr s off) = memberAddr s2 off →
      MT_LIST_NEXT m (memberAddr s off) off = s2) ∧
    (∀ m s s2 off, readPrev m (memberAddr s off) = memberAddr s2 off →
      MT_LIST_PREV m (memberAddr s off) off = s2) := by
  refine ⟨fun m a off => ⟨rfl, rfl⟩, ?_, ?_⟩
  · intro m s s2 off hh
    simp only [memberAddr] at hh
    simp [MT_LIST_NEXT, MT_LIST_ELEM, memberAddr, hh]
  · intro m s s2 off hh
    simp only [memberAddr] at hh
    simp [MT_LIST_PREV, MT_LIST_ELEM, memberAddr, hh]

/-- C10 witness: in the concrete heap mNav, the node embedded at offset 8 of
the structure at 96 has its successor embedded at offset 8 of the structure
at 200, and MT_LIST_NEXT recovers that structure. -/
theorem c10_witness :
    readNext mNav (memberAddr 96 8) = memberAddr 200 8 ∧
      MT_LIST_NEXT mNav (memberAddr 96 8) 8 = 200 :=
  ⟨by decide, c10_nav_compose.2.1 mNav 96 200 8 (by decide)⟩
